/-
Verification of the CompAI report-rendering core: the markdown inline
transformer, block segmenter, heading-based sectionizer and
executive-summary selector (frontend `Report.tsx`).  The TypeScript
functions are shallowly embedded as executable Lean definitions over
`String`, viewed through its `data : List Char` field, and the claimed
properties are proved (or refuted) about those definitions.
-/
import Mathlib

set_option maxRecDepth 10000

/-! ## String primitives

The JavaScript string operations used by the source (`split('\n')`,
`trim()`, `startsWith`, `includes`, `toLowerCase`, `substring`, `join`)
are embedded as executable functions on `String.data`. -/

/-- Strings are equal when their character lists are. -/
theorem strExt {a b : String} (h : a.data = b.data) : a = b := by
  cases a; cases b; cases h; rfl

/-- The character list of an appended string. -/
@[simp] theorem sdata_append (a b : String) : (a ++ b).data = a.data ++ b.data := by
  cases a; cases b; rfl

/-- The character list of `String.mk`. -/
@[simp] theorem sdata_mk (l : List Char) : (String.mk l).data = l := rfl

/-- The character list of the newline separator. -/
@[simp] theorem sdata_nl : ("\n").data = ['\n'] := rfl

/-- JS `s.startsWith(pre)`. -/
def strStartsWith (s pre : String) : Bool :=
  pre.data.isPrefixOf s.data

/-- JS `s.includes(sub)` on character lists: the needle is a prefix of
some suffix of the haystack. -/
def containsData : List Char → List Char → Bool
  | [], needle => needle.isEmpty
  | c :: t, needle => needle.isPrefixOf (c :: t) || containsData t needle

/-- JS `s.includes(sub)`. -/
def strContains (s sub : String) : Bool :=
  containsData s.data sub.data

/-- JS `s.trim()` on a character list: strip whitespace at both ends. -/
def trimData (cs : List Char) : List Char :=
  ((cs.dropWhile Char.isWhitespace).reverse.dropWhile Char.isWhitespace).reverse

/-- JS `s.trim()`. -/
def strTrim (s : String) : String :=
  String.mk (trimData s.data)

/-- JS `s.toLowerCase()` (ASCII, which is all the source feeds it). -/
def toLowerStr (s : String) : String :=
  String.mk (s.data.map Char.toLower)

/-- JS `s.substring(0, n)`. -/
def strTake (s : String) (n : Nat) : String :=
  String.mk (s.data.take n)

/-- JS `s.substring(n)`. -/
def strDrop (s : String) (n : Nat) : String :=
  String.mk (s.data.drop n)

/-- JS `s.split('\n')` on a character list; always returns at least one
(possibly empty) segment, exactly like the JavaScript method. -/
def splitLinesData : List Char → List (List Char)
  | [] => [[]]
  | c :: cs =>
    if c = '\n' then [] :: splitLinesData cs
    else
      match splitLinesData cs with
      | [] => [[c]]
      | l :: ls => (c :: l) :: ls

/-- JS `s.split('\n')`. -/
def splitLines (s : String) : List String :=
  (splitLinesData s.data).map String.mk

/-- JS `lines.join('\n')`. -/
def joinNl : List String → String
  | [] => ""
  | [l] => l
  | l :: ls => l ++ "\n" ++ joinNl ls

/-- Character-list version of `joinNl`, for the round-trip proofs. -/
def joinNlData : List (List Char) → List Char
  | [] => []
  | [l] => l
  | l :: ls => l ++ '\n' :: joinNlData ls

/-- Concatenation of a list of strings (no separator). -/
def concatStr : List String → String
  | [] => ""
  | s :: ss => s ++ concatStr ss

/-! ## Heading-based sectionizer (`parseSections` in `Report.tsx`)

`parseSections` first checks `content.match(/^#+ .+/gm)`, then splits the
document with `content.split(/(?=^## )/gm)` (a zero-width lookahead before
every line beginning `"## "`), and maps every chunk to a `Section`
record, finally filtering out short-bodied or untitled chunks. -/

/-- One line matches the heading regex `/^#+ .+/` : after one or more `#`
characters comes a space and then at least one (non-newline) character. -/
def afterHashes : List Char → Bool
  | '#' :: cs => afterHashes cs
  | ' ' :: cs => !cs.isEmpty
  | _ => false

/-- `/^#+ .+/` applied to a single line. -/
def isHeadingLine (l : String) : Bool :=
  match l.data with
  | '#' :: cs => afterHashes cs
  | _ => false

/-- `content.match(/^#+ .+/gm)` is non-null: some line is a heading line. -/
def hasHeading (content : String) : Bool :=
  (splitLines content).any isHeadingLine

/-- A line at which `/(?=^## )/gm` cuts: it begins a level-2 heading. -/
def isH2Line (l : String) : Bool :=
  strStartsWith l "## "

/-- Group the document's lines into chunks: a new chunk starts exactly at
each line (other than the first) that begins `"## "`, mirroring the
zero-width lookahead split `content.split(/(?=^## )/gm)`. -/
def chunkGroups : List String → List (List String)
  | [] => []
  | [l] => [[l]]
  | l :: l2 :: ls =>
    if isH2Line l2 then [l] :: chunkGroups (l2 :: ls)
    else
      match chunkGroups (l2 :: ls) with
      | [] => [[l]]
      | g :: gs => (l :: g) :: gs

/-- Reattach the newline that separates consecutive chunks: in the
zero-width split every chunk but the last keeps its trailing `'\n'`. -/
def glueNl : List (List String) → List String
  | [] => []
  | [g] => [joinNl g]
  | g :: gs => (joinNl g ++ "\n") :: glueNl gs

/-- `content.split(/(?=^## )/gm)`. -/
def splitByH2 (content : String) : List String :=
  glueNl (chunkGroups (splitLines content))

/-- The `Section` record `{id, title, body}` of `Report.tsx`. -/
structure Section where
  id : String
  title : String
  body : String
deriving DecidableEq, Repr

/-- `section.trim().split('\n')`. -/
def chunkLines (chunk : String) : List String :=
  splitLines (strTrim chunk)

/-- `lines.find(l => l.startsWith('##')) || lines.find(l => l.startsWith('#'))`
(a found line is a non-empty string, hence truthy). -/
def titleLineOfChunk (chunk : String) : Option String :=
  ((chunkLines chunk).find? (fun l => strStartsWith l "##")).orElse
    (fun _ => (chunkLines chunk).find? (fun l => strStartsWith l "#"))

/-- `titleLine.replace(/^#+\s*/, '')`: strip the leading run of `#`
markers and the whitespace after it. -/
def stripHeadingMarkers (l : String) : String :=
  match l.data with
  | '#' :: _ =>
      String.mk ((l.data.dropWhile (fun c => c = '#')).dropWhile Char.isWhitespace)
  | _ => l

/-- `.replace(/\*\*/g, '')`: delete every (left-to-right, non-overlapping)
occurrence of `**`. -/
def removeBoldData : List Char → List Char
  | '*' :: '*' :: cs => removeBoldData cs
  | c :: cs => c :: removeBoldData cs
  | [] => []

/-- Bold-marker removal on strings. -/
def removeBoldMarkers (s : String) : String :=
  String.mk (removeBoldData s.data)

/-- The title text extracted from a chunk (before the positional
fallback): markers stripped, `**` removed, trimmed; `''` when the chunk
has no line starting with `#`. -/
def rawTitleOfChunk (chunk : String) : String :=
  match titleLineOfChunk chunk with
  | some t => strTrim (removeBoldMarkers (stripHeadingMarkers t))
  | none => ""

/-- `lines.filter(l => !l.startsWith('#')).join('\n').trim()`. -/
def bodyOfChunk (chunk : String) : String :=
  strTrim (joinNl ((chunkLines chunk).filter (fun l => !(strStartsWith l "#"))))

/-- `title.toLowerCase().replace(/[^a-z0-9]+/g, '-')`: collapse every run
of non-alphanumeric characters into a single hyphen. -/
def isSlugKeep (c : Char) : Bool :=
  ('a' ≤ c && c ≤ 'z') || ('0' ≤ c && c ≤ '9')

/-- The run-collapsing slug on character lists; the flag records whether
the scanner is inside a run of non-alphanumeric characters whose single
`'-'` has already been emitted. -/
def slugAux : Bool → List Char → List Char
  | _, [] => []
  | inRun, c :: cs =>
    if isSlugKeep c then c :: slugAux false cs
    else if inRun then slugAux true cs
    else '-' :: slugAux true cs

/-- The run-collapsing slug on character lists. -/
def slugData (cs : List Char) : List Char :=
  slugAux false cs

/-- The identifier slug of a (already lower-cased) title. -/
def slugStr (s : String) : String :=
  String.mk (slugData s.data)

/-- The body of `sections.map((section, index) => ...)` in
`parseSections`: build one `Section` from a chunk and its 0-based index. -/
def mkSection (idx : Nat) (chunk : String) : Section :=
  let title0 := rawTitleOfChunk chunk
  let body := bodyOfChunk chunk
  let title := if title0 = "" ∧ body ≠ "" then "Section " ++ toString (idx + 1) else title0
  let slugged := slugStr (toLowerStr title)
  let sid := if slugged = "" then "section-" ++ toString idx else slugged
  ⟨sid, title, body⟩

/-- `parseSections` from `Report.tsx`. -/
def parseSections (content : String) : List Section :=
  if hasHeading content then
    (((splitByH2 content).enum).map (fun p => mkSection p.1 p.2)).filter
      (fun s => 10 < s.body.length && s.title ≠ "")
  else []

/-! ## Executive-summary selector (`Report` component, lines 180–186) -/

/-- The predicate of `sections.find(...)`: the title, lower-cased,
contains `"executive"` or `"summary"`. -/
def isSummaryTitle (s : Section) : Bool :=
  strContains (toLowerStr s.title) "executive" || strContains (toLowerStr s.title) "summary"

/-- `sections.find(s => s.title.toLowerCase().includes('executive') || ...)`. -/
def findOverview (sections : List Section) : Option Section :=
  sections.find? isSummaryTitle

/-- `sections.filter(s => s.id !== executiveSummary?.id)`; when no section
matched, `executiveSummary?.id` is `undefined` and every section passes. -/
def generalSections (sections : List Section) : List Section :=
  match findOverview sections with
  | some ov => sections.filter (fun s => s.id ≠ ov.id)
  | none => sections

/-! ## Round-trip lemmas for the zero-width split (claim C5) -/

theorem sappend_empty (s : String) : s ++ "" = s :=
  strExt (by simp)

theorem sappend_assoc (a b c : String) : a ++ b ++ c = a ++ (b ++ c) :=
  strExt (by simp)

theorem joinNl_cons₂ (a b : String) (bs : List String) :
    joinNl (a :: b :: bs) = a ++ "\n" ++ joinNl (b :: bs) := rfl

theorem joinNlData_cons₂ (a b : List Char) (bs : List (List Char)) :
    joinNlData (a :: b :: bs) = a ++ '\n' :: joinNlData (b :: bs) := rfl

theorem splitLinesData_ne_nil (cs : List Char) : splitLinesData cs ≠ [] := by
  induction cs with
  | nil => simp [splitLinesData]
  | cons c cs ih =>
    by_cases h : c = '\n'
    · simp [splitLinesData, h]
    · simp only [splitLinesData, if_neg h]
      cases hsp : splitLinesData cs <;> simp

theorem joinNlData_splitLinesData (cs : List Char) :
    joinNlData (splitLinesData cs) = cs := by
  induction cs with
  | nil => rfl
  | cons c cs ih =>
    by_cases h : c = '\n'
    · subst h
      simp only [splitLinesData, if_pos rfl]
      cases hr : splitLinesData cs with
      | nil => exact absurd hr (splitLinesData_ne_nil cs)
      | cons r0 rs =>
        rw [hr] at ih
        simp [joinNlData_cons₂, ih]
    · simp only [splitLinesData, if_neg h]
      cases hr : splitLinesData cs with
      | nil => exact absurd hr (splitLinesData_ne_nil cs)
      | cons r0 rs =>
        rw [hr] at ih
        cases rs with
        | nil => simpa [joinNlData] using congrArg (c :: ·) ih
        | cons r1 rs' =>
          rw [joinNlData_cons₂] at ih ⊢
          simp only [List.cons_append]
          rw [← ih]

theorem joinNl_map_mk (ll : List (List Char)) :
    (joinNl (ll.map String.mk)).data = joinNlData ll := by
  induction ll with
  | nil => rfl
  | cons l ll ih =>
    cases ll with
    | nil => rfl
    | cons l2 ll2 =>
      rw [List.map_cons, List.map_cons, joinNl_cons₂, joinNlData_cons₂]
      rw [List.map_cons] at ih
      simp [ih]

theorem joinNl_splitLines (s : String) : joinNl (splitLines s) = s :=
  strExt (by rw [splitLines, joinNl_map_mk, joinNlData_splitLinesData])

theorem chunkGroups_head (l : String) (ls : List String) :
    ∃ g gs, chunkGroups (l :: ls) = (l :: g) :: gs := by
  induction ls generalizing l with
  | nil => exact ⟨[], [], rfl⟩
  | cons l2 ls' ih =>
    by_cases hh : isH2Line l2
    · exact ⟨[], chunkGroups (l2 :: ls'), by simp [chunkGroups, hh]⟩
    · obtain ⟨g, gs, heq⟩ := ih l2
      exact ⟨l2 :: g, gs, by simp [chunkGroups, hh, heq]⟩

theorem chunkGroups_join (ls : List String) : (chunkGroups ls).join = ls := by
  induction ls with
  | nil => rfl
  | cons l ls' ih =>
    cases ls' with
    | nil => rfl
    | cons l2 ls'' =>
      by_cases hh : isH2Line l2
      · simp [chunkGroups, hh, ih]
      · obtain ⟨g, gs, heq⟩ := chunkGroups_head l2 ls''
        rw [heq] at ih
        simp only [chunkGroups, if_neg hh, heq]
        simpa using ih

theorem chunkGroups_mem_ne_nil (ls : List String) (g : List String)
    (hg : g ∈ chunkGroups ls) : g ≠ [] := by
  induction ls generalizing g with
  | nil => simp [chunkGroups] at hg
  | cons l ls' ih =>
    cases ls' with
    | nil =>
      simp [chunkGroups] at hg
      simp [hg]
    | cons l2 ls'' =>
      by_cases hh : isH2Line l2
      · rw [chunkGroups, if_pos hh] at hg
        rcases List.mem_cons.mp hg with h | h
        · simp [h]
        · exact ih g h
      · obtain ⟨g0, gs, heq⟩ := chunkGroups_head l2 ls''
        rw [chunkGroups, if_neg hh, heq] at hg
        rcases List.mem_cons.mp hg with h | h
        · simp [h]
        · exact ih g (by rw [heq]; exact List.mem_cons_of_mem _ h)

theorem chunkGroups_tail_not_h2 (ls : List String) (g : List String)
    (hg : g ∈ chunkGroups ls) : ∀ l ∈ g.tail, isH2Line l = false := by
  induction ls generalizing g with
  | nil => simp [chunkGroups] at hg
  | cons l ls' ih =>
    cases ls' with
    | nil =>
      simp [chunkGroups] at hg
      simp [hg]
    | cons l2 ls'' =>
      by_cases hh : isH2Line l2
      · rw [chunkGroups, if_pos hh] at hg
        rcases List.mem_cons.mp hg with h | h
        · simp [h]
        · exact ih g h
      · obtain ⟨g0, gs, heq⟩ := chunkGroups_head l2 ls''
        rw [chunkGroups, if_neg hh, heq] at hg
        rcases List.mem_cons.mp hg with h | h
        · subst h
          intro x hx
          simp only [List.tail_cons] at hx
          rcases List.mem_cons.mp hx with h' | h'
          · subst h'; simpa using hh
          · exact ih (l2 :: g0) (by rw [heq]; exact List.mem_cons_self _ _) x
              (by simpa using h')
        · exact ih g (by rw [heq]; exact List.mem_cons_of_mem _ h)

theorem joinNl_append (a b : List String) (ha : a ≠ []) (hb : b ≠ []) :
    joinNl (a ++ b) = joinNl a ++ "\n" ++ joinNl b := by
  induction a with
  | nil => exact absurd rfl ha
  | cons x a' ih =>
    cases a' with
    | nil =>
      cases b with
      | nil => exact absurd rfl hb
      | cons y b' => rfl
    | cons x2 a'' =>
      have hrec := ih (by simp)
      cases b with
      | nil => exact absurd rfl hb
      | cons y b' =>
        simp only [List.cons_append] at hrec ⊢
        rw [joinNl_cons₂, hrec, joinNl_cons₂]
        simp [sappend_assoc]

theorem concatStr_glueNl (gs : List (List String))
    (h : ∀ g ∈ gs, g ≠ []) : concatStr (glueNl gs) = joinNl gs.join := by
  induction gs with
  | nil => rfl
  | cons g gs' ih =>
    cases gs' with
    | nil =>
      show joinNl g ++ "" = joinNl (g ++ [])
      rw [sappend_empty, List.append_nil]
    | cons g2 gs'' =>
      have hg : g ≠ [] := h g (List.mem_cons_self _ _)
      have hjoin : (g2 :: gs'').join ≠ [] := by
        have hg2 : g2 ≠ [] := h g2 (by simp)
        cases g2 with
        | nil => exact absurd rfl hg2
        | cons a t => simp
      show (joinNl g ++ "\n") ++ concatStr (glueNl (g2 :: gs'')) = _
      rw [ih (fun x hx => h x (List.mem_cons_of_mem _ hx))]
      rw [show (g :: g2 :: gs'').join = g ++ (g2 :: gs'').join from rfl]
      rw [joinNl_append g _ hg hjoin, sappend_assoc]

/-! ## Generic `find?` decomposition lemmas -/

/-- If every element of `pre` fails `p` and `t` satisfies it, `find?`
returns `t` on `pre ++ t :: post`: "the first match in order". -/
theorem find?_first {α} (p : α → Bool) (pre post : List α) (t : α)
    (hpre : ∀ x ∈ pre, p x = false) (ht : p t = true) :
    (pre ++ t :: post).find? p = some t := by
  induction pre with
  | nil => simpa using List.find?_cons_of_pos _ ht
  | cons a pre' ih =>
    have ha : ¬ p a = true := by simp [hpre a (List.mem_cons_self _ _)]
    rw [List.cons_append, List.find?_cons_of_neg _ ha]
    exact ih (fun x hx => hpre x (List.mem_cons_of_mem _ hx))

/-- Conversely, a successful `find?` splits the list at the first match. -/
theorem find?_decomp {α} (p : α → Bool) (l : List α) (t : α)
    (h : l.find? p = some t) :
    ∃ pre post, l = pre ++ t :: post ∧ ∀ x ∈ pre, p x = false := by
  induction l with
  | nil => simp at h
  | cons a l' ih =>
    by_cases ha : p a = true
    · rw [List.find?_cons_of_pos _ ha] at h
      obtain rfl : a = t := by injection h
      exact ⟨[], l', rfl, by simp⟩
    · rw [List.find?_cons_of_neg _ ha] at h
      obtain ⟨pre, post, hsp, hpre⟩ := ih h
      refine ⟨a :: pre, post, by rw [hsp]; rfl, ?_⟩
      intro x hx
      rcases List.mem_cons.mp hx with rfl | hx'
      · simpa using ha
      · exact hpre x hx'

/-! ## Claim C5 : the zero-width split loses and duplicates nothing -/

/-- C5: the concatenation of the chunks produced by the Sectionizer's
split equals the original document, and within every chunk only the first
line can begin a level-2 heading (`"## "`), i.e. every level-2 heading
line starts a new chunk. -/
theorem splitByH2_lossless (content : String) :
    concatStr (splitByH2 content) = content ∧
    ∀ g ∈ chunkGroups (splitLines content), ∀ l ∈ g.tail, isH2Line l = false := by
  constructor
  · rw [splitByH2, concatStr_glueNl _ (fun g hg => chunkGroups_mem_ne_nil _ g hg),
      chunkGroups_join, joinNl_splitLines]
  · exact fun g hg => chunkGroups_tail_not_h2 _ g hg

/-- Witness for C5 at a concrete document. -/
theorem splitByH2_lossless_witness :
    concatStr (splitByH2 "intro\n## A\nx\n## B\ny") = "intro\n## A\nx\n## B\ny" ∧
    isH2Line "x" = false :=
  ⟨(splitByH2_lossless "intro\n## A\nx\n## B\ny").1,
   (splitByH2_lossless "intro\n## A\nx\n## B\ny").2 ["## A", "x"] (by decide) "x" (by decide)⟩

/-! ## Claim C6 : no heading lines means an empty section list -/

/-- C6: when no line of the document matches the heading pattern
`/^#+ .+/`, `parseSections` returns the empty list (a normal result). -/
theorem parseSections_empty_of_no_heading (content : String)
    (h : hasHeading content = false) : parseSections content = [] := by
  simp [parseSections, h]

/-- Witness for C6 at a concrete heading-free document. -/
theorem parseSections_empty_of_no_heading_witness :
    hasHeading "plain text\nwith no markdown headings at all" = false ∧
    parseSections "plain text\nwith no markdown headings at all" = [] :=
  ⟨by decide, parseSections_empty_of_no_heading _ (by decide)⟩

/-! ## Claim C7 : filter-then-promote on the spec's example input -/

/-- The example document of the spec's §8 testable property. -/
def ex7 : String :=
  "## Executive Summary\nShort.\n## Risks\nThis paragraph is long enough to pass the ten-character body-length filter easily."

/-- C7: the "Executive Summary" chunk (body `"Short."`, length ≤ 10) is
dropped by the Sectionizer's filter before the selector runs, so no
overview is chosen and the general list holds exactly the "Risks"
section. -/
theorem filter_then_promote_example :
    (splitByH2 ex7).length = 2 ∧
    parseSections ex7 =
      [⟨"risks", "Risks",
        "This paragraph is long enough to pass the ten-character body-length filter easily."⟩] ∧
    findOverview (parseSections ex7) = none ∧
    generalSections (parseSections ex7) =
      [⟨"risks", "Risks",
        "This paragraph is long enough to pass the ten-character body-length filter easily."⟩] := by
  decide

/-! ## Claim C1 : section identifiers are *not* always unique -/

/-- Two sections with the same title receive the same identifier slug. -/
def ex1 : String :=
  "## Risks\nbody one is long enough to keep\n## Risks\nbody two is long enough"

/-- C1 counterexample: a document with two `"## Risks"` sections gets two
sections whose identifiers are both `"risks"` — the identifiers returned
by `parseSections` are not pairwise distinct, and no positional fallback
breaks the tie. -/
theorem parseSections_duplicate_ids_cex :
    ((parseSections ex1).map (fun s => s.id)) = ["risks", "risks"] ∧
    ¬ ((parseSections ex1).map (fun s => s.id)).Nodup := by
  decide

/-- A non-empty title always yields a non-empty identifier slug. -/
theorem slugStr_ne_empty (t : String) (h : t ≠ "") : slugStr (toLowerStr t) ≠ "" := by
  intro hc
  have hd : (slugStr (toLowerStr t)).data = [] := by rw [hc]
  cases ht : t.data with
  | nil => exact h (strExt ht)
  | cons c cs =>
    rw [slugStr, toLowerStr, ht, List.map_cons] at hd
    simp only [sdata_mk] at hd
    rw [slugData] at hd
    by_cases hk : isSlugKeep (Char.toLower c) <;> simp [slugAux, hk] at hd

/-- Every section kept by `parseSections` has a non-empty title, so its
identifier is exactly the slug of its title (the positional fallback
`section-N` never fires for a kept section). -/
theorem parseSections_id_eq_slug (content : String) :
    ∀ s ∈ parseSections content, s.id = slugStr (toLowerStr s.title) := by
  intro s hs
  by_cases hh : hasHeading content
  · rw [parseSections, if_pos hh] at hs
    obtain ⟨hmem, hpred⟩ := List.mem_filter.mp hs
    obtain ⟨p, hp, heq⟩ := List.mem_map.mp hmem
    subst heq
    have htitle : (mkSection p.1 p.2).title ≠ "" := by
      have h2 := (Bool.and_eq_true _ _).mp hpred |>.2
      simpa using h2
    simp only [mkSection] at htitle ⊢
    rw [if_neg (slugStr_ne_empty _ htitle)]
  · rw [parseSections, if_neg hh] at hs
    simp at hs

/-- C1 amended: identifiers are the slugs of the titles, so they are
pairwise distinct exactly when the title slugs are; the positional
fallback applies only to empty slugs, never to ties between equal
titles. -/
theorem parseSections_ids_nodup_of_slug_nodup (content : String)
    (h : ((parseSections content).map (fun s => slugStr (toLowerStr s.title))).Nodup) :
    ((parseSections content).map (fun s => s.id)).Nodup := by
  have heq : (parseSections content).map (fun s => s.id)
      = (parseSections content).map (fun s => slugStr (toLowerStr s.title)) :=
    List.map_congr_left (fun s hs => parseSections_id_eq_slug content s hs)
  rw [heq]; exact h

/-- A document whose two kept sections have distinct title slugs. -/
def ex1b : String :=
  "## Alpha\nbody long enough here one\n## Beta\nbody long enough here two"

/-- Witness for the amended C1. -/
theorem parseSections_ids_nodup_witness :
    ((parseSections ex1b).map (fun s => s.id)).Nodup :=
  parseSections_ids_nodup_of_slug_nodup ex1b (by decide)

/-! ## Claim C2 : the selector filters by identifier, not by element -/

/-- Two kept sections share the identifier `"summary"`. -/
def ex2 : String :=
  "## Summary\nfirst summary body long enough.\n## Summary\nsecond summary body long enough."

/-- C2 counterexample: the sectionizer yields two sections, the selector
promotes the first, but the filter `s.id !== executiveSummary?.id`
removes *both* sections sharing the identifier, so the general list is
empty instead of holding the one unpromoted section. -/
theorem generalSections_removes_both_cex :
    (parseSections ex2).length = 2 ∧
    (findOverview (parseSections ex2)).isSome = true ∧
    generalSections (parseSections ex2) = [] := by
  decide

/-- C2 amended: the selector promotes the first section (in order) whose
lower-cased title contains "executive" or "summary"; the general list is
the input with every section *sharing the promoted identifier* removed —
which is exactly the one promoted section whenever identifiers are
pairwise distinct — and with no match nothing is removed. -/
theorem selector_spec (secs : List Section) :
    (findOverview secs = none → generalSections secs = secs) ∧
    (∀ ov, findOverview secs = some ov →
      isSummaryTitle ov = true ∧
      (∃ pre post, secs = pre ++ ov :: post ∧ ∀ s ∈ pre, isSummaryTitle s = false) ∧
      generalSections secs = secs.filter (fun s => s.id ≠ ov.id)) ∧
    ((secs.map (fun s => s.id)).Nodup → ∀ ov, findOverview secs = some ov →
      generalSections secs = secs.filter (fun s => s ≠ ov)) := by
  refine ⟨?_, ?_, ?_⟩
  · intro h; simp [generalSections, h]
  · intro ov hov
    refine ⟨List.find?_some hov, find?_decomp _ _ _ hov, ?_⟩
    simp [generalSections, hov]
  · intro hnd ov hov
    have hmem : ov ∈ secs := List.mem_of_find?_eq_some hov
    have hfil : generalSections secs = secs.filter (fun s => s.id ≠ ov.id) := by
      simp [generalSections, hov]
    rw [hfil]
    apply List.filter_congr
    intro s hs
    rw [decide_eq_decide]
    constructor
    · intro hid hsov; exact hid (by rw [hsov])
    · intro hsne hid; exact hsne (List.inj_on_of_nodup_map hnd hs hmem hid)

/-- A document with distinct identifiers where a summary is promoted. -/
def ex2b : String :=
  "## Overview Summary\nthis body is long enough to keep\n## Risks\nanother body long enough to keep"

/-- Witness for the amended C2. -/
theorem selector_spec_witness :
    generalSections (parseSections ex2b) =
      (parseSections ex2b).filter
        (fun s => s ≠ ⟨"overview-summary", "Overview Summary",
          "this body is long enough to keep"⟩) :=
  (selector_spec (parseSections ex2b)).2.2 (by decide) _ (by decide)

/-! ## Claim C3 : the chunk title comes from `startsWith('##')` -/

/-- A document whose single chunk has a level-1 heading first and a
level-3 heading later. -/
def ex3 : String :=
  "# Title\nintro text here is long\n### Sub\nmore body text that is long enough"

/-- C3 counterexample: the chunk contains no level-2 heading line, so by
the claim the title should come from the *first* heading line of any
level (`"# Title"`, text `"Title"`); the code instead finds the first
line starting with `"##"` — the level-3 line `"### Sub"` — and titles
the section `"Sub"`. -/
theorem title_not_first_heading_cex :
    ((parseSections ex3).map (fun s => s.title)) = ["Sub"] ∧
    (∀ l ∈ splitLines ex3, isH2Line l = false) ∧
    (splitLines ex3).find? isHeadingLine = some "# Title" ∧
    strTrim (removeBoldMarkers (stripHeadingMarkers "# Title")) = "Title" := by
  decide

/-- C3 amended: the title is the cleaned text of the first line that
starts with `"##"` (two hash characters — matching any heading of level
≥ 2); only when no line starts with `"##"` is it the cleaned text of the
first line starting with `"#"`. -/
theorem rawTitle_spec (chunk : String) :
    (∀ pre t post, chunkLines chunk = pre ++ t :: post →
      (∀ l ∈ pre, strStartsWith l "##" = false) → strStartsWith t "##" = true →
      rawTitleOfChunk chunk = strTrim (removeBoldMarkers (stripHeadingMarkers t))) ∧
    ((∀ l ∈ chunkLines chunk, strStartsWith l "##" = false) →
      ∀ pre t post, chunkLines chunk = pre ++ t :: post →
      (∀ l ∈ pre, strStartsWith l "#" = false) → strStartsWith t "#" = true →
      rawTitleOfChunk chunk = strTrim (removeBoldMarkers (stripHeadingMarkers t))) := by
  constructor
  · intro pre t post hsplit hpre ht
    rw [rawTitleOfChunk, titleLineOfChunk, hsplit,
      find?_first _ _ _ _ hpre ht]
    rfl
  · intro hnone pre t post hsplit hpre ht
    have h1 : (chunkLines chunk).find? (fun l => strStartsWith l "##") = none :=
      List.find?_eq_none.mpr (fun x hx => by simp [hnone x hx])
    rw [rawTitleOfChunk, titleLineOfChunk, h1, hsplit]
    rw [show (Option.orElse none fun _ =>
        (pre ++ t :: post).find? fun l => strStartsWith l "#") =
        (pre ++ t :: post).find? (fun l => strStartsWith l "#") from rfl]
    rw [find?_first _ _ _ _ hpre ht]

/-- Witness for the amended C3: a chunk whose only `"##"`-line is the
level-3 heading `"### A"`. -/
theorem rawTitle_spec_witness :
    rawTitleOfChunk "### A\nbody" =
      strTrim (removeBoldMarkers (stripHeadingMarkers "### A")) :=
  (rawTitle_spec "### A\nbody").1 [] "### A" ["body"] (by decide) (by decide) (by decide)

/-! ## Block segmenter (the list/paragraph wrapping loop of `parseMarkdown`)

The loop walks the lines of the inline-transformed text carrying the
boolean `inList`, opening `<ul>` before the first list item of a run,
closing it at the first non-list line, wrapping other non-blank lines in
`<p>` unless they already start with block markup, and closing a still
open list after the last line. -/

/-- The body of the `for (const line of lines)` loop plus the final
`if (inList) processed.push('</ul>')` flush. -/
def segmentLines : Bool → List String → List String
  | inList, [] => if inList then ["</ul>"] else []
  | inList, line :: ls =>
    let trimmed := strTrim line
    if strStartsWith trimmed "- " || strStartsWith trimmed "* " then
      (if inList then [] else ["<ul>"]) ++
        ("<li>" ++ strDrop trimmed 2 ++ "</li>") :: segmentLines true ls
    else
      (if inList then ["</ul>"] else []) ++
        (if trimmed ≠ "" then
          (if strStartsWith trimmed "<div" || strStartsWith trimmed "<h" then [line]
           else ["<p>" ++ line ++ "</p>"])
         else []) ++ segmentLines false ls

/-- The whole line-wrapping pass: split, process, `join('\n')`. -/
def blockSegment (s : String) : String :=
  joinNl (segmentLines false (splitLines s))

theorem pwrap_ne_ul (x : String) : ("<p>" ++ x ++ "</p>") ≠ "<ul>" := by
  intro h; have hd := congrArg String.data h; simp [sdata_append] at hd

theorem pwrap_ne_cul (x : String) : ("<p>" ++ x ++ "</p>") ≠ "</ul>" := by
  intro h; have hd := congrArg String.data h; simp [sdata_append] at hd

theorem liwrap_ne_ul (x : String) : ("<li>" ++ x ++ "</li>") ≠ "<ul>" := by
  intro h; have hd := congrArg String.data h; simp [sdata_append] at hd

theorem liwrap_ne_cul (x : String) : ("<li>" ++ x ++ "</li>") ≠ "</ul>" := by
  intro h; have hd := congrArg String.data h; simp [sdata_append] at hd

/-- Loop invariant: the processed output of the remaining lines contains
exactly one more `</ul>` than `<ul>` when a list is open, and equal
numbers otherwise. -/
theorem segmentLines_count (ls : List String) : ∀ inList : Bool,
    List.countP (fun x => x == "</ul>") (segmentLines inList ls) =
    List.countP (fun x => x == "<ul>") (segmentLines inList ls) +
      (if inList then 1 else 0) := by
  induction ls with
  | nil => intro inList; cases inList <;> simp [segmentLines]
  | cons line ls ih =>
    intro inList
    by_cases hl : (strStartsWith (strTrim line) "- " || strStartsWith (strTrim line) "* ") = true
    · have e : segmentLines inList (line :: ls) =
          (if inList then [] else ["<ul>"]) ++
            ("<li>" ++ strDrop (strTrim line) 2 ++ "</li>") :: segmentLines true ls := by
        simp only [segmentLines]
        rw [if_pos hl]
      rw [e]
      have h1 := liwrap_ne_ul (strDrop (strTrim line) 2)
      have h2 := liwrap_ne_cul (strDrop (strTrim line) 2)
      cases inList <;>
        simp [List.countP_append, List.countP_cons, h1, h2, ih true]
    · have e : segmentLines inList (line :: ls) =
          (if inList then ["</ul>"] else []) ++
            (if strTrim line ≠ "" then
              (if strStartsWith (strTrim line) "<div" || strStartsWith (strTrim line) "<h"
               then [line] else ["<p>" ++ line ++ "</p>"])
             else []) ++ segmentLines false ls := by
        simp only [segmentLines]
        rw [if_neg hl]
      rw [e]
      by_cases hb : strTrim line = ""
      · cases inList <;>
          simp [hb, List.countP_append, List.countP_cons, ih false]
      · by_cases hpass : (strStartsWith (strTrim line) "<div" ||
            strStartsWith (strTrim line) "<h") = true
        · have hne1 : line ≠ "<ul>" := by
            intro hx; subst hx; exact absurd hpass (by decide)
          have hne2 : line ≠ "</ul>" := by
            intro hx; subst hx; exact absurd hpass (by decide)
          cases inList <;>
            simp [hb, hpass, List.countP_append, List.countP_cons, hne1, hne2, ih false]
        · have h1 := pwrap_ne_ul line
          have h2 := pwrap_ne_cul line
          cases inList <;>
            simp [hb, hpass, List.countP_append, List.countP_cons, h1, h2, ih false]

/-- C4: for every input text, the Block Segmenter emits as many
list-open tags `<ul>` as list-close tags `</ul>` — also when the input
ends while a list is still open. -/
theorem blockSegment_balanced (s : String) :
    List.countP (fun x => x == "<ul>") (segmentLines false (splitLines s)) =
    List.countP (fun x => x == "</ul>") (segmentLines false (splitLines s)) := by
  have h := segmentLines_count (splitLines s) false
  simpa using h.symm

/-! ## Claim C8 : link rendering (`parseMarkdown`, link pass)

The replacement callback of
`html.replace(/\[(.*?)\]\((.*?)\)/g, (match, text, url) => ...)`:
truncate over-long display text and emit a new-tab anchor. -/

/-- The anchor emitted for one matched link `[text](url)`. -/
def renderLink (text url : String) : String :=
  let displayedText := if 80 < text.length then strTake text 77 ++ "..." else text
  "<a href=\"" ++ url ++ "\" target=\"_blank\" rel=\"noopener noreferrer\">" ++
    displayedText ++ "</a>"

theorem isPrefixOf_self_append (n r : List Char) : n.isPrefixOf (n ++ r) = true := by
  induction n with
  | nil => cases r <;> rfl
  | cons c n' ih =>
    show (c == c && n'.isPrefixOf (n' ++ r)) = true
    simp [ih]

theorem containsData_append_right (a b n : List Char)
    (h : containsData b n = true) : containsData (a ++ b) n = true := by
  induction a with
  | nil => simpa using h
  | cons c a' ih =>
    show (n.isPrefixOf (c :: (a' ++ b)) || containsData (a' ++ b) n) = true
    rw [ih]
    simp

theorem containsData_here (n r : List Char) : containsData (n ++ r) n = true := by
  cases n with
  | nil =>
    induction r with
    | nil => rfl
    | cons c r' ih =>
      show (List.isPrefixOf [] (c :: r') || containsData r' []) = true
      rw [List.nil_append] at ih
      simp only [ih, Bool.or_true]
  | cons c n' =>
    show ((c :: n').isPrefixOf ((c :: n') ++ r) || containsData (n' ++ r) (c :: n')) = true
    rw [isPrefixOf_self_append]
    simp

/-- String-level: a substring of the right part is a substring of the whole. -/
theorem strContains_append_right (a b n : String)
    (h : strContains b n = true) : strContains (a ++ b) n = true := by
  rw [strContains, sdata_append]
  exact containsData_append_right _ _ _ h

/-- String-level: a string starting with the needle contains it. -/
theorem strContains_here (n r : String) : strContains (n ++ r) n = true := by
  rw [strContains, sdata_append]
  exact containsData_here _ _

/-- C8: for every matched link, text over 80 characters is displayed as
its first 77 characters followed by `"..."`, text of at most 80
characters is displayed unchanged, and the emitted anchor opens a new
browsing context (`target="_blank"`) with `rel="noopener noreferrer"`. -/
theorem renderLink_spec (text url : String) :
    (80 < text.length →
      renderLink text url =
        "<a href=\"" ++ url ++ "\" target=\"_blank\" rel=\"noopener noreferrer\">" ++
          (strTake text 77 ++ "...") ++ "</a>") ∧
    (text.length ≤ 80 →
      renderLink text url =
        "<a href=\"" ++ url ++ "\" target=\"_blank\" rel=\"noopener noreferrer\">" ++
          text ++ "</a>") ∧
    (strTake text 77).length = min 77 text.length ∧
    strContains (renderLink text url) "target=\"_blank\"" = true ∧
    strContains (renderLink text url) "rel=\"noopener noreferrer\"" = true := by
  refine ⟨?_, ?_, ?_, ?_, ?_⟩
  · intro h
    simp only [renderLink, if_pos h]
  · intro h
    simp only [renderLink, if_neg (by omega : ¬ 80 < text.length)]
  · show (text.data.take 77).length = min 77 text.length
    rw [List.length_take]
    rfl
  · have hlit : ("\" target=\"_blank\" rel=\"noopener noreferrer\">" : String) =
        "\" " ++ ("target=\"_blank\"" ++ " rel=\"noopener noreferrer\">") := rfl
    have hsplit : renderLink text url =
        ("<a href=\"" ++ (url ++ "\" ")) ++
          ("target=\"_blank\"" ++ (" rel=\"noopener noreferrer\">" ++
            ((if 80 < text.length then strTake text 77 ++ "..." else text) ++ "</a>"))) := by
      simp only [renderLink]
      rw [hlit]
      simp only [sappend_assoc]
    rw [hsplit]
    apply strContains_append_right
    exact strContains_here _ _
  · have hlit : ("\" target=\"_blank\" rel=\"noopener noreferrer\">" : String) =
        "\" target=\"_blank\" " ++ ("rel=\"noopener noreferrer\"" ++ ">") := rfl
    have hsplit : renderLink text url =
        ("<a href=\"" ++ (url ++ "\" target=\"_blank\" ")) ++
          ("rel=\"noopener noreferrer\"" ++ (">" ++
            ((if 80 < text.length then strTake text 77 ++ "..." else text) ++ "</a>"))) := by
      simp only [renderLink]
      rw [hlit]
      simp only [sappend_assoc]
    rw [hsplit]
    apply strContains_append_right
    exact strContains_here _ _

/-- A display text of exactly 90 characters. -/
def linkText90 : String :=
  "012345678901234567890123456789012345678901234567890123456789012345678901234567890123456789"

/-- Witness for C8: the 90-character display text of the spec's example
is rendered truncated, and the anchor carries the safe rel attributes. -/
theorem renderLink_spec_witness :
    80 < linkText90.length ∧
    renderLink linkText90 "https://e" =
      "<a href=\"" ++ "https://e" ++ "\" target=\"_blank\" rel=\"noopener noreferrer\">" ++
        (strTake linkText90 77 ++ "...") ++ "</a>" ∧
    strContains (renderLink linkText90 "https://e") "rel=\"noopener noreferrer\"" = true :=
  ⟨by decide, (renderLink_spec linkText90 "https://e").1 (by decide),
   (renderLink_spec linkText90 "https://e").2.2.2.2⟩

/-! ## Claim C9 : bold before italic (`parseMarkdown`, asterisk passes)

`html.replace(/\*\*(.+?)\*\*/g, '<strong>$1</strong>')` followed by
`html.replace(/\*(.+?)\*/g, '<em>$1</em>')`.  The lazy group `(.+?)` is
the shortest non-empty run of non-newline characters followed by the
closing marker; the global scan restarts one character later when no
match starts at the current position. -/

/-- Find the lazy match of `(.+?)\*\*`: the shortest non-empty newline-free
prefix followed by `**`; returns the captured text and the rest. -/
def findBoldClose : List Char → Option (List Char × List Char)
  | [] => none
  | c :: cs =>
    if c = '\n' then none
    else if cs.take 2 = ['*', '*'] then some ([c], cs.drop 2)
    else (findBoldClose cs).map (fun p => (c :: p.1, p.2))

theorem findBoldClose_length (cs : List Char) (p : List Char × List Char)
    (h : findBoldClose cs = some p) : p.2.length < cs.length := by
  induction cs generalizing p with
  | nil => simp [findBoldClose] at h
  | cons c cs ih =>
    by_cases hn : c = '\n'
    · simp [findBoldClose, hn] at h
    · by_cases h2 : cs.take 2 = ['*', '*']
      · rw [findBoldClose, if_neg hn, if_pos h2] at h
        have hlen : 2 ≤ cs.length := by
          have := congrArg List.length h2
          simp at this
          omega
        cases h
        simp
        omega
      · rw [findBoldClose, if_neg hn, if_neg h2] at h
        rw [Option.map_eq_some'] at h
        obtain ⟨q, hq, rfl⟩ := h
        have := ih q hq
        simp
        omega

/-- The global bold pass `replace(/\*\*(.+?)\*\*/g, '<strong>$1</strong>')`. -/
def boldPassData (l : List Char) : List Char :=
  match l with
  | [] => []
  | c :: cs =>
    if c = '*' ∧ cs.take 1 = ['*'] then
      match hm : findBoldClose (cs.drop 1) with
      | some p => ("<strong>").data ++ p.1 ++ ("</strong>").data ++ boldPassData p.2
      | none => c :: boldPassData cs
    else c :: boldPassData cs
termination_by l.length
decreasing_by
  · have h1 := findBoldClose_length (cs.drop 1) p hm
    have h2 : (cs.drop 1).length ≤ cs.length := by simp
    simp only [List.length_cons]
    omega
  · simp
  · simp

/-- Find the lazy match of `(.+?)\*`: shortest non-empty newline-free
prefix followed by a single `*`. -/
def findEmClose : List Char → Option (List Char × List Char)
  | [] => none
  | c :: cs =>
    if c = '\n' then none
    else if cs.take 1 = ['*'] then some ([c], cs.drop 1)
    else (findEmClose cs).map (fun p => (c :: p.1, p.2))

theorem findEmClose_length (cs : List Char) (p : List Char × List Char)
    (h : findEmClose cs = some p) : p.2.length < cs.length := by
  induction cs generalizing p with
  | nil => simp [findEmClose] at h
  | cons c cs ih =>
    by_cases hn : c = '\n'
    · simp [findEmClose, hn] at h
    · by_cases h2 : cs.take 1 = ['*']
      · rw [findEmClose, if_neg hn, if_pos h2] at h
        have hlen : 1 ≤ cs.length := by
          have := congrArg List.length h2
          simp at this
          omega
        cases h
        simp
        omega
      · rw [findEmClose, if_neg hn, if_neg h2] at h
        rw [Option.map_eq_some'] at h
        obtain ⟨q, hq, rfl⟩ := h
        have := ih q hq
        simp
        omega

/-- The global italic pass `replace(/\*(.+?)\*/g, '<em>$1</em>')`. -/
def emPassData (l : List Char) : List Char :=
  match l with
  | [] => []
  | c :: cs =>
    if c = '*' then
      match hm : findEmClose cs with
      | some p => ("<em>").data ++ p.1 ++ ("</em>").data ++ emPassData p.2
      | none => c :: emPassData cs
    else c :: emPassData cs
termination_by l.length
decreasing_by
  · have h1 := findEmClose_length cs p hm
    simp only [List.length_cons]
    omega
  · simp
  · simp

/-- The bold pass on strings. -/
def boldPass (s : String) : String :=
  String.mk (boldPassData s.data)

/-- The italic pass on strings. -/
def emPass (s : String) : String :=
  String.mk (emPassData s.data)

/-- The two asterisk passes of `parseMarkdown`, in source order: bold
first, then italic. -/
def boldItalic (s : String) : String :=
  emPass (boldPass s)

theorem boldPassData_nostar (c : Char) (cs : List Char)
    (h : ¬ (c = '*' ∧ cs.take 1 = ['*'])) :
    boldPassData (c :: cs) = c :: boldPassData cs := by
  rw [boldPassData]
  rw [if_neg h]

theorem boldPassData_open (cs : List Char) (p : List Char × List Char)
    (h : findBoldClose cs = some p) :
    boldPassData ('*' :: '*' :: cs) =
      ("<strong>").data ++ p.1 ++ ("</strong>").data ++ boldPassData p.2 := by
  rw [boldPassData]
  rw [if_pos (by simp : ('*' : Char) = '*' ∧ (('*' :: cs).take 1 = ['*']))]
  split
  · next p' hp' =>
      have hpp : some p' = some p := by rw [← hp']; exact h
      cases hpp; rfl
  · next hnone =>
      simp only [List.drop_succ_cons, List.drop_zero] at hnone
      rw [h] at hnone; cases hnone

theorem emPassData_nostar (c : Char) (cs : List Char) (h : ¬ c = '*') :
    emPassData (c :: cs) = c :: emPassData cs := by
  rw [emPassData]
  rw [if_neg h]

/-- The bold pass leaves asterisk-free text unchanged. -/
theorem boldPassData_id (l : List Char) (h : ∀ c ∈ l, c ≠ '*') :
    boldPassData l = l := by
  induction l with
  | nil => rw [boldPassData]
  | cons c cs ih =>
    rw [boldPassData_nostar c cs (fun hand => h c (List.mem_cons_self _ _) hand.1)]
    rw [ih (fun x hx => h x (List.mem_cons_of_mem _ hx))]

/-- The italic pass leaves asterisk-free text unchanged. -/
theorem emPassData_id (l : List Char) (h : ∀ c ∈ l, c ≠ '*') :
    emPassData l = l := by
  induction l with
  | nil => rw [emPassData]
  | cons c cs ih =>
    rw [emPassData_nostar c cs (h c (List.mem_cons_self _ _))]
    rw [ih (fun x hx => h x (List.mem_cons_of_mem _ hx))]

/-- The bold pass commutes with an asterisk-free prefix. -/
theorem boldPassData_append_front (pre l : List Char) (h : ∀ c ∈ pre, c ≠ '*') :
    boldPassData (pre ++ l) = pre ++ boldPassData l := by
  induction pre with
  | nil => simp
  | cons c pre' ih =>
    rw [List.cons_append,
      boldPassData_nostar c _ (fun hand => h c (List.mem_cons_self _ _) hand.1),
      ih (fun x hx => h x (List.mem_cons_of_mem _ hx)), List.cons_append]

/-- The lazy close-scan finds exactly the marker-free captured text. -/
theorem findBoldClose_append (X rest : List Char) (hne : X ≠ [])
    (hX : ∀ c ∈ X, c ≠ '*' ∧ c ≠ '\n') :
    findBoldClose (X ++ '*' :: '*' :: rest) = some (X, rest) := by
  induction X with
  | nil => exact absurd rfl hne
  | cons x X' ih =>
    have hx := hX x (List.mem_cons_self _ _)
    cases X' with
    | nil =>
      rw [List.cons_append, List.nil_append, findBoldClose, if_neg hx.2,
        if_pos (by simp)]
      simp
    | cons y X'' =>
      have hy := hX y (by simp)
      rw [List.cons_append, findBoldClose, if_neg hx.2, if_neg (by simp [hy.1]),
        ih (by simp) (fun c hc => hX c (List.mem_cons_of_mem _ hc))]
      rfl

/-- C9: a well-formed bold span `**X**` with no nested markers (and no
other asterisks in scope) is wrapped in exactly one `<strong>` element,
and because the bold pass runs first and consumes both a sterisk pairs,
the italic pass never re-wraps the span: the final output holds `X`
wrapped once, with no emphasis element introduced. -/
theorem boldItalic_single_strong (pre X post : String)
    (hpre : ∀ c ∈ pre.data, c ≠ '*')
    (hX : ∀ c ∈ X.data, c ≠ '*' ∧ c ≠ '\n')
    (hXne : X.data ≠ [])
    (hpost : ∀ c ∈ post.data, c ≠ '*') :
    boldItalic (pre ++ "**" ++ X ++ "**" ++ post) =
      pre ++ "<strong>" ++ X ++ "</strong>" ++ post := by
  have hdata : (pre ++ "**" ++ X ++ "**" ++ post).data
      = pre.data ++ ('*' :: '*' :: (X.data ++ '*' :: '*' :: post.data)) := by
    simp
  have h1 : boldPassData (pre ++ "**" ++ X ++ "**" ++ post).data
      = pre.data ++ (("<strong>").data ++ X.data ++ ("</strong>").data ++ post.data) := by
    rw [hdata, boldPassData_append_front _ _ hpre,
      boldPassData_open _ (X.data, post.data) (findBoldClose_append _ _ hXne hX),
      boldPassData_id _ hpost]
  have hso : ∀ x ∈ ("<strong>").data, x ≠ '*' := by decide
  have hsc : ∀ x ∈ ("</strong>").data, x ≠ '*' := by decide
  have hnostar : ∀ c ∈ pre.data ++ (("<strong>").data ++ X.data ++ ("</strong>").data
      ++ post.data), c ≠ '*' := by
    intro c hc
    rcases List.mem_append.mp hc with h | h
    · exact hpre c h
    · rcases List.mem_append.mp h with h' | h'
      · rcases List.mem_append.mp h' with h'' | h''
        · rcases List.mem_append.mp h'' with h3 | h3
          · exact hso c h3
          · exact (hX c h3).1
        · exact hsc c h''
      · exact hpost c h'
  apply strExt
  show emPassData (boldPassData (pre ++ "**" ++ X ++ "**" ++ post).data) = _
  rw [h1, emPassData_id _ hnostar]
  simp

/-- Witness for C9 on a concrete bold span. -/
theorem boldItalic_single_strong_witness :
    boldItalic ("a " ++ "**" ++ "bold" ++ "**" ++ " b") =
      "a " ++ "<strong>" ++ "bold" ++ "</strong>" ++ " b" :=
  boldItalic_single_strong "a " "bold" " b" (by decide) (by decide) (by decide) (by decide)

/-! ## Claim C10 : the body filter drops every `#`-initial line

`parseSections` builds the body from
`lines.filter(line => !line.startsWith('#'))`, so a line is excluded by
its first character alone — also lines the header pass of
`parseMarkdown` would not convert (no space after the markers, or four
or more `#`). -/

/-- `html.replace(/^### (.+)$/gm, '<h3>$1</h3>')` on one line. -/
def h3Line (l : String) : String :=
  if strStartsWith l "### " ∧ 4 < l.length then "<h3>" ++ strDrop l 4 ++ "</h3>" else l

/-- `html.replace(/^## (.+)$/gm, '<h2>$1</h2>')` on one line. -/
def h2Line (l : String) : String :=
  if strStartsWith l "## " ∧ 3 < l.length then "<h2>" ++ strDrop l 3 ++ "</h2>" else l

/-- `html.replace(/^# (.+)$/gm, '<h1>$1</h1>')` on one line. -/
def h1Line (l : String) : String :=
  if strStartsWith l "# " ∧ 2 < l.length then "<h1>" ++ strDrop l 2 ++ "</h1>" else l

/-- The header pass of `parseMarkdown` on one line, in source order:
level 3 first, then level 2, then level 1. -/
def headerLine (l : String) : String :=
  h1Line (h2Line (h3Line l))

/-- The header pass over the whole text (the three replaces are anchored
to single lines and never produce newlines). -/
def headerPass (s : String) : String :=
  joinNl ((splitLines s).map headerLine)

/-- `line.startsWith('#')` tests exactly the first character. -/
theorem strStartsWith_hash (l : String) :
    strStartsWith l "#" = (l.data.head? == some '#') := by
  rw [strStartsWith]
  cases hd : l.data with
  | nil => rfl
  | cons c cs =>
    show ('#' == c && List.isPrefixOf [] cs) = (some c == some '#')
    have hnil : List.isPrefixOf ([] : List Char) cs = true := by cases cs <;> rfl
    rw [hnil, Bool.and_true]
    by_cases hc : c = '#'
    · subst hc; decide
    · have h1 : ('#' == c) = false := by simp [Ne.symm hc]
      have h2 : ((some c : Option Char) == some '#') = false := by simp [hc]
      rw [h1, h2]

/-- C10: the section body keeps exactly the chunk lines whose first
character is not `'#'`, so every `#`-initial line is excluded — including
`"#tag"` (no space, not a heading even for the sectionizer's pattern) and
`"#### x"` (four markers, left as literal text by the inline
transformer's header pass): on a concrete document both lines vanish
from the body. -/
theorem body_excludes_hash_lines :
    (∀ chunk : String, bodyOfChunk chunk =
      strTrim (joinNl ((chunkLines chunk).filter (fun l => !(l.data.head? == some '#'))))) ∧
    headerLine "#tag" = "#tag" ∧
    headerLine "#### x" = "#### x" ∧
    isHeadingLine "#tag" = false ∧
    ("#tag").data.head? = some '#' ∧
    ("#### x").data.head? = some '#' ∧
    parseSections "## T\n#tag\n#### x\nthis body is long enough to keep" =
      [⟨"t", "T", "this body is long enough to keep"⟩] := by
  refine ⟨?_, by decide, by decide, by decide, by decide, by decide, by decide⟩
  intro chunk
  rw [bodyOfChunk]
  have hfil : (chunkLines chunk).filter (fun l => !(strStartsWith l "#"))
      = (chunkLines chunk).filter (fun l => !(l.data.head? == some '#')) :=
    List.filter_congr (fun l _ => by rw [strStartsWith_hash])
  rw [hfil]
